import Mathlib

/-!
Verification of the geometry-kernel specification extracted from the
geocompy chapters.  The chapters call into external geometry engines
(GEOS via geopandas and shapely, and the rasterio warping engine), so the
algorithms themselves are not part of the repository's sources; following
the specification, each component is modelled here from the spec's own
description (Douglas-Peucker simplification, affine transformation,
pairwise set operations, dissolve versus combine, and grid aggregation by
average resampling), and the claimed properties are proved or refuted
against those models.
-/

namespace GeoKernel

/-- A planar point with rational coordinates: the shallow embedding of the
(x, y) pairs of finite numeric coordinates in the spec's data model. -/
abbrev Pt : Type := ℚ × ℚ

/-- Squared Euclidean distance between two points. -/
def distSq (p q : Pt) : ℚ := (p.1 - q.1) ^ 2 + (p.2 - q.2) ^ 2

/-- Cross product of the vectors b - a and p - a; it is zero exactly when
the three points are collinear. -/
def crossChord (a b p : Pt) : ℚ :=
  (b.1 - a.1) * (p.2 - a.2) - (b.2 - a.2) * (p.1 - a.1)

/-- Modelled from the spec: the scaled squared perpendicular distance of p
from the chord joining a and b, the deviation measure of the
Douglas-Peucker algorithm of spec section 4.1 (the GEOS implementation
behind GeoSeries.simplify is not part of the repository).  For a
nondegenerate chord this is the squared cross product, which is the
squared perpendicular distance multiplied by distSq a b; for a degenerate
chord (a = b, as at the closure point of a ring) it is the squared
distance to a. -/
def devSq (a b p : Pt) : ℚ :=
  if a = b then distSq p a else (crossChord a b p) ^ 2

/-- The threshold against which devSq is compared; comparing devSq with
this value is equivalent to comparing the true perpendicular distance with
the tolerance t, both sides being scaled by distSq a b when the chord is
nondegenerate. -/
def devThreshold (a b : Pt) (t : ℚ) : ℚ :=
  if a = b then t ^ 2 else t ^ 2 * distSq a b

/-- Splits a list at its first element of maximum f-value, returning the
elements before it, the element itself, and the elements after it.
Returns none exactly on the empty list.  This realises the deterministic
lowest-index tie-break rule the spec asks implementers to fix. -/
def splitAtMax {α : Type} (f : α → ℚ) : List α → Option (List α × α × List α)
  | [] => none
  | p :: ps =>
    match splitAtMax f ps with
    | none => some ([], p, [])
    | some (l, m, r) => if f p < f m then some (p :: l, m, r) else some ([], p, ps)

theorem splitAtMax_nil {α : Type} (f : α → ℚ) : splitAtMax f [] = none := rfl

theorem splitAtMax_cons_ne_none {α : Type} (f : α → ℚ) (x : α) (xs : List α) :
    splitAtMax f (x :: xs) ≠ none := by
  cases h : splitAtMax f xs
  · simp [splitAtMax, h]
  · simp only [splitAtMax, h]
    split <;> simp

theorem eq_nil_of_splitAtMax_eq_none {α : Type} {f : α → ℚ} {xs : List α}
    (h : splitAtMax f xs = none) : xs = [] := by
  cases xs with
  | nil => rfl
  | cons x xs => exact absurd h (splitAtMax_cons_ne_none f x xs)

/-- Specification of splitAtMax: it decomposes the list around an element
whose f-value strictly dominates everything before it and weakly dominates
everything after it. -/
theorem splitAtMax_spec {α : Type} (f : α → ℚ) :
    ∀ (xs l : List α) (m : α) (r : List α), splitAtMax f xs = some (l, m, r) →
      xs = l ++ m :: r ∧ (∀ x ∈ l, f x < f m) ∧ (∀ x ∈ r, f x ≤ f m) := by
  intro xs
  induction xs with
  | nil => intro l m r h; simp [splitAtMax] at h
  | cons p ps ih =>
    intro l m r h
    rcases h' : splitAtMax f ps with _ | ⟨l', m', r'⟩
    · have hps : ps = [] := eq_nil_of_splitAtMax_eq_none h'
      subst hps
      simp [splitAtMax] at h
      obtain ⟨h1, h2, h3⟩ := h
      subst h1; subst h2; subst h3
      simp
    · obtain ⟨hps, hl', hr'⟩ := ih l' m' r' h'
      simp only [splitAtMax, h'] at h
      by_cases hlt : f p < f m'
      · rw [if_pos hlt] at h
        simp only [Option.some.injEq, Prod.mk.injEq] at h
        obtain ⟨h1, h2, h3⟩ := h
        subst h1; subst h2; subst h3
        refine ⟨by rw [hps]; rfl, ?_, hr'⟩
        intro x hx
        rcases List.mem_cons.mp hx with hx | hx
        · exact hx ▸ hlt
        · exact hl' x hx
      · rw [if_neg hlt] at h
        simp only [Option.some.injEq, Prod.mk.injEq] at h
        obtain ⟨h1, h2, h3⟩ := h
        subst h1; subst h2; subst h3
        push_neg at hlt
        refine ⟨rfl, by simp, ?_⟩
        intro x hx
        rw [hps] at hx
        rcases List.mem_append.mp hx with hx | hx
        · exact le_of_lt (lt_of_lt_of_le (hl' x hx) hlt)
        · rcases List.mem_cons.mp hx with hx | hx
          · exact hx ▸ hlt
          · exact le_trans (hr' x hx) hlt

/-- Converse characterisation: a decomposition in which the middle element
strictly dominates the left part and weakly dominates the right part is
exactly what splitAtMax returns. -/
theorem splitAtMax_eq_of {α : Type} (f : α → ℚ) :
    ∀ (l : List α) (m : α) (r : List α),
      (∀ x ∈ l, f x < f m) → (∀ x ∈ r, f x ≤ f m) →
      splitAtMax f (l ++ m :: r) = some (l, m, r) := by
  intro l
  induction l with
  | nil =>
    intro m r _ hr
    show splitAtMax f (m :: r) = some ([], m, r)
    rcases h' : splitAtMax f r with _ | ⟨l', m', r'⟩
    · have : r = [] := eq_nil_of_splitAtMax_eq_none h'
      subst this
      simp [splitAtMax]
    · obtain ⟨hr', _, _⟩ := splitAtMax_spec f r l' m' r' h'
      have hm' : m' ∈ r := by rw [hr']; exact List.mem_append_right _ (List.mem_cons_self _ _)
      have : ¬ f m < f m' := not_lt.mpr (hr m' hm')
      simp [splitAtMax, h', this]
  | cons p l ih =>
    intro m r hl hr
    have hpl : f p < f m := hl p (List.mem_cons_self _ _)
    have hrec : splitAtMax f (l ++ m :: r) = some (l, m, r) :=
      ih m r (fun x hx => hl x (List.mem_cons_of_mem _ hx)) hr
    show splitAtMax f (p :: (l ++ m :: r)) = some (p :: l, m, r)
    simp [splitAtMax, hrec, hpl]

/-- Modelled from the spec: the recursive Douglas-Peucker simplifier of
spec section 4.1 (the GEOS implementation behind GeoSeries.simplify is not
part of the repository), written with an explicit fuel parameter so that
the recursion is structural and kernel-computable.  Given the chord
endpoints a and b and the interior vertices mid, it finds the interior
vertex of maximum perpendicular distance from the chord; if that distance
is at most the tolerance it collapses the whole segment to its endpoints,
otherwise it recurses on the two sub-segments split at that vertex.  The
fuel only needs to be at least the number of interior vertices, which
strictly decreases at each split. -/
def douglasPeuckerAux : ℕ → ℚ → Pt → List Pt → Pt → List Pt
  | 0, _, a, _, b => [a, b]
  | fuel + 1, t, a, mid, b =>
    match splitAtMax (devSq a b) mid with
    | none => [a, b]
    | some (l, m, r) =>
      if devSq a b m ≤ devThreshold a b t then [a, b]
      else douglasPeuckerAux fuel t a l m ++ (douglasPeuckerAux fuel t m r b).tail

/-- Douglas-Peucker on a segment with endpoints a, b and interior vertices
mid, run with just enough fuel. -/
def douglasPeucker (t : ℚ) (a : Pt) (mid : List Pt) (b : Pt) : List Pt :=
  douglasPeuckerAux mid.length t a mid b

theorem douglasPeuckerAux_nil (fuel : ℕ) (t : ℚ) (a b : Pt) :
    douglasPeuckerAux fuel t a [] b = [a, b] := by
  cases fuel <;> rfl

/-- The fuel is irrelevant as long as it covers the number of interior
vertices. -/
theorem douglasPeuckerAux_fuel :
    ∀ (f₁ : ℕ) (mid : List Pt) (f₂ : ℕ) (t : ℚ) (a b : Pt),
      mid.length ≤ f₁ → mid.length ≤ f₂ →
      douglasPeuckerAux f₁ t a mid b = douglasPeuckerAux f₂ t a mid b := by
  intro f₁
  induction f₁ with
  | zero =>
    intro mid f₂ t a b h₁ _
    have : mid = [] := List.eq_nil_of_length_eq_zero (Nat.le_zero.mp h₁)
    subst this
    rw [douglasPeuckerAux_nil, douglasPeuckerAux_nil]
  | succ f₁ ih =>
    intro mid f₂ t a b h₁ h₂
    rcases h : splitAtMax (devSq a b) mid with _ | ⟨l, m, r⟩
    · have : mid = [] := eq_nil_of_splitAtMax_eq_none h
      subst this
      rw [douglasPeuckerAux_nil, douglasPeuckerAux_nil]
    · obtain ⟨hmid, -, -⟩ := splitAtMax_spec _ mid l m r h
      have hlen : mid.length = l.length + r.length + 1 := by
        rw [hmid]; simp [List.length_append]; omega
      obtain ⟨f₂', rfl⟩ : ∃ f₂', f₂ = f₂' + 1 := by
        cases f₂ with
        | zero => omega
        | succ n => exact ⟨n, rfl⟩
      have hl₁ : l.length ≤ f₁ := by omega
      have hr₁ : r.length ≤ f₁ := by omega
      have hl₂ : l.length ≤ f₂' := by omega
      have hr₂ : r.length ≤ f₂' := by omega
      simp only [douglasPeuckerAux, h]
      by_cases hc : devSq a b m ≤ devThreshold a b t
      · rw [if_pos hc, if_pos hc]
      · rw [if_neg hc, if_neg hc, ih l f₂' t a m hl₁ hl₂, ih r f₂' t m b hr₁ hr₂]

theorem douglasPeucker_nil (t : ℚ) (a b : Pt) : douglasPeucker t a [] b = [a, b] := rfl

/-- Unfolding equation: when the maximum deviation is within tolerance the
segment collapses to its endpoints. -/
theorem douglasPeucker_eq_of_small {a b : Pt} {mid l : List Pt} {m : Pt} {r : List Pt}
    (t : ℚ) (h : splitAtMax (devSq a b) mid = some (l, m, r))
    (hle : devSq a b m ≤ devThreshold a b t) :
    douglasPeucker t a mid b = [a, b] := by
  obtain ⟨hmid, -, -⟩ := splitAtMax_spec _ mid l m r h
  have hlen : mid.length = l.length + r.length + 1 := by
    rw [hmid]; simp [List.length_append]; omega
  rw [douglasPeucker, hlen]
  simp only [douglasPeuckerAux, h]
  rw [if_pos hle]

/-- Unfolding equation: when the maximum deviation exceeds the tolerance
the segment is split at the deviating vertex and both halves are
simplified. -/
theorem douglasPeucker_eq_of_big {a b : Pt} {mid l : List Pt} {m : Pt} {r : List Pt}
    (t : ℚ) (h : splitAtMax (devSq a b) mid = some (l, m, r))
    (hgt : ¬ devSq a b m ≤ devThreshold a b t) :
    douglasPeucker t a mid b =
      douglasPeucker t a l m ++ (douglasPeucker t m r b).tail := by
  obtain ⟨hmid, -, -⟩ := splitAtMax_spec _ mid l m r h
  have hlen : mid.length = l.length + r.length + 1 := by
    rw [hmid]; simp [List.length_append]; omega
  rw [douglasPeucker, hlen]
  simp only [douglasPeuckerAux, h]
  rw [if_neg hgt,
    douglasPeuckerAux_fuel _ l l.length t a m (by omega) le_rfl,
    douglasPeuckerAux_fuel _ r r.length t m b (by omega) le_rfl]
  rfl

/-- Modelled from the spec: simplification of a polyline or polygon ring,
keeping the two endpoints and running Douglas-Peucker on the interior
vertices (spec section 4.1).  Inputs with fewer than two vertices are
returned unchanged. -/
def simplify (g : List Pt) (t : ℚ) : List Pt :=
  match g with
  | [] => []
  | [p] => [p]
  | a :: q :: rest => douglasPeucker t a ((q :: rest).dropLast) (rest.getLastD q)

/-- Dropping the last element and the defaulted last element recompose a
nonempty list. -/
theorem dropLast_append_getLastD {α : Type} :
    ∀ (l : List α) (d : α), (d :: l).dropLast ++ [l.getLastD d] = d :: l := by
  intro l
  induction l with
  | nil => intro d; rfl
  | cons x xs ih =>
    intro d
    have := ih x
    simp only [List.getLastD_cons]
    simp only [List.dropLast_cons₂, List.cons_append]
    rw [show (x :: xs).dropLast ++ [xs.getLastD x] = x :: xs from ih x]

/-- Structure of the Douglas-Peucker output: it starts with the first
endpoint, ends with the second, and its interior vertices form a
subsequence of the input interior vertices. -/
theorem douglasPeucker_shape (t : ℚ) :
    ∀ (mid : List Pt) (a b : Pt),
      ∃ inner, douglasPeucker t a mid b = a :: inner ++ [b] ∧ inner.Sublist mid := by
  suffices H : ∀ (n : ℕ) (mid : List Pt), mid.length ≤ n → ∀ (a b : Pt),
      ∃ inner, douglasPeucker t a mid b = a :: inner ++ [b] ∧ inner.Sublist mid by
    exact fun mid a b => H mid.length mid le_rfl a b
  intro n
  induction n with
  | zero =>
    intro mid h a b
    have : mid = [] := List.eq_nil_of_length_eq_zero (Nat.le_zero.mp h)
    subst this
    exact ⟨[], by rw [douglasPeucker_nil]; rfl, List.nil_sublist _⟩
  | succ n ih =>
    intro mid hlen a b
    rcases h : splitAtMax (devSq a b) mid with _ | ⟨l, m, r⟩
    · have : mid = [] := eq_nil_of_splitAtMax_eq_none h
      subst this
      exact ⟨[], by rw [douglasPeucker_nil]; rfl, List.nil_sublist _⟩
    · obtain ⟨hmid, -, -⟩ := splitAtMax_spec _ mid l m r h
      have hmlen : mid.length = l.length + r.length + 1 := by
        rw [hmid]; simp [List.length_append]; omega
      by_cases hc : devSq a b m ≤ devThreshold a b t
      · refine ⟨[], ?_, List.nil_sublist _⟩
        rw [douglasPeucker_eq_of_small t h hc]; rfl
      · rw [douglasPeucker_eq_of_big t h hc]
        obtain ⟨il, hil, hils⟩ := ih l (by omega) a m
        obtain ⟨ir, hir, hirs⟩ := ih r (by omega) m b
        refine ⟨il ++ m :: ir, ?_, ?_⟩
        · rw [hil, hir]
          simp
        · rw [hmid]
          exact hils.append (hirs.cons₂ m)

/-- Claim C1: for every polyline or polygon ring g and every tolerance
t ≥ 0, every vertex of simplify g t is a vertex of g, the output vertex
count never exceeds the input vertex count, the first and last vertices of
g are retained as the first and last vertices of the output, and when g is
closed (first vertex equal to last vertex) the output is closed as well. -/
theorem simplify_subset_endpoints_ring (g : List Pt) (t : ℚ) (_ht : 0 ≤ t) :
    (∀ v ∈ simplify g t, v ∈ g) ∧
    (simplify g t).length ≤ g.length ∧
    (simplify g t).head? = g.head? ∧
    (simplify g t).getLast? = g.getLast? ∧
    (g.head? = g.getLast? → (simplify g t).head? = (simplify g t).getLast?) := by
  match g with
  | [] => exact ⟨by simp [simplify], by simp [simplify], rfl, rfl, fun _ => rfl⟩
  | [p] => exact ⟨by simp [simplify], by simp [simplify], rfl, rfl, fun _ => rfl⟩
  | a :: q :: rest =>
    set b : Pt := rest.getLastD q with hb
    set mid : List Pt := (q :: rest).dropLast with hmid
    have hdec : mid ++ [b] = q :: rest := dropLast_append_getLastD rest q
    have hsim : simplify (a :: q :: rest) t = douglasPeucker t a mid b := rfl
    obtain ⟨inner, hsh, hsub⟩ := douglasPeucker_shape t mid a b
    have hg : a :: q :: rest = a :: mid ++ [b] := by rw [← hdec]; rfl
    rw [hsim, hsh, hg]
    have hlast : ∀ (x : Pt) (l : List Pt), (x :: l ++ [b]).getLast? = some b := by
      intro x l
      rw [show x :: l ++ [b] = (x :: l) ++ [b] from rfl, List.getLast?_concat]
    refine ⟨?_, ?_, rfl, ?_, ?_⟩
    · intro v hv
      rcases List.mem_cons.mp hv with hv | hv
      · exact hv ▸ List.mem_cons_self _ _
      · rcases List.mem_append.mp hv with hv | hv
        · exact List.mem_cons_of_mem _ (List.mem_append_left _ (hsub.subset hv))
        · exact List.mem_cons_of_mem _ (List.mem_append_right _ hv)
    · simp only [List.length_cons, List.length_append, List.length_cons, List.length_nil]
      have := hsub.length_le
      omega
    · rw [hlast, hlast]
    · intro hclosed
      rw [hlast] at hclosed
      rw [hlast]
      rw [show (a :: mid ++ [b]).head? = some a from rfl] at hclosed
      rw [show (a :: inner ++ [b]).head? = some a from rfl]
      exact hclosed

/-- Concrete check for claim C1 on the five-vertex staircase polyline of
the spec with tolerance 1. -/
theorem simplify_subset_endpoints_ring_check :
    (0 : ℚ) ≤ 1 ∧
    ((∀ v ∈ simplify [((0 : ℚ), (0 : ℚ)), (1, 0), (1, 1), (2, 1), (2, 2)] 1,
        v ∈ [((0 : ℚ), (0 : ℚ)), (1, 0), (1, 1), (2, 1), (2, 2)]) ∧
      (simplify [((0 : ℚ), (0 : ℚ)), (1, 0), (1, 1), (2, 1), (2, 2)] 1).length ≤
        ([((0 : ℚ), (0 : ℚ)), (1, 0), (1, 1), (2, 1), (2, 2)] : List Pt).length ∧
      (simplify [((0 : ℚ), (0 : ℚ)), (1, 0), (1, 1), (2, 1), (2, 2)] 1).head? =
        ([((0 : ℚ), (0 : ℚ)), (1, 0), (1, 1), (2, 1), (2, 2)] : List Pt).head? ∧
      (simplify [((0 : ℚ), (0 : ℚ)), (1, 0), (1, 1), (2, 1), (2, 2)] 1).getLast? =
        ([((0 : ℚ), (0 : ℚ)), (1, 0), (1, 1), (2, 1), (2, 2)] : List Pt).getLast? ∧
      (([((0 : ℚ), (0 : ℚ)), (1, 0), (1, 1), (2, 1), (2, 2)] : List Pt).head? =
          ([((0 : ℚ), (0 : ℚ)), (1, 0), (1, 1), (2, 1), (2, 2)] : List Pt).getLast? →
        (simplify [((0 : ℚ), (0 : ℚ)), (1, 0), (1, 1), (2, 1), (2, 2)] 1).head? =
          (simplify [((0 : ℚ), (0 : ℚ)), (1, 0), (1, 1), (2, 1), (2, 2)] 1).getLast?)) :=
  ⟨by norm_num,
    simplify_subset_endpoints_ring [((0 : ℚ), (0 : ℚ)), (1, 0), (1, 1), (2, 1), (2, 2)] 1
      (by norm_num)⟩

theorem cons_append_singleton_inj {α : Type} {a b : α} {l₁ l₂ : List α}
    (h : a :: l₁ ++ [b] = a :: l₂ ++ [b]) : l₁ = l₂ := by
  have h' := congrArg List.dropLast (congrArg List.tail h)
  simpa using h'

/-- Rerunning Douglas-Peucker on its own output reproduces the output:
because the split vertex is chosen as the first vertex of maximum
deviation, it dominates the retained vertices around it exactly as it
dominated the original vertices, so the recursion splits at the same
places. -/
theorem douglasPeucker_idem (t : ℚ) :
    ∀ (mid : List Pt) (a b : Pt) (inner : List Pt),
      douglasPeucker t a mid b = a :: inner ++ [b] →
      douglasPeucker t a inner b = a :: inner ++ [b] := by
  suffices H : ∀ (n : ℕ) (mid : List Pt), mid.length ≤ n → ∀ (a b : Pt) (inner : List Pt),
      douglasPeucker t a mid b = a :: inner ++ [b] →
      douglasPeucker t a inner b = a :: inner ++ [b] by
    exact fun mid a b inner h => H mid.length mid le_rfl a b inner h
  have base : ∀ (a b : Pt) (inner : List Pt), [a, b] = a :: inner ++ [b] →
      douglasPeucker t a inner b = a :: inner ++ [b] := by
    intro a b inner h
    have hlen := congrArg List.length h
    simp only [List.length_cons, List.length_append, List.length_nil] at hlen
    have : inner = [] := List.eq_nil_of_length_eq_zero (by omega)
    subst this
    rw [douglasPeucker_nil]
    rfl
  intro n
  induction n with
  | zero =>
    intro mid hlen a b inner h
    have : mid = [] := List.eq_nil_of_length_eq_zero (Nat.le_zero.mp hlen)
    subst this
    rw [douglasPeucker_nil] at h
    exact base a b inner h
  | succ n ih =>
    intro mid hlen a b inner h
    rcases hs : splitAtMax (devSq a b) mid with _ | ⟨l, m, r⟩
    · have : mid = [] := eq_nil_of_splitAtMax_eq_none hs
      subst this
      rw [douglasPeucker_nil] at h
      exact base a b inner h
    · obtain ⟨hmid, hl, hr⟩ := splitAtMax_spec _ mid l m r hs
      have hmlen : mid.length = l.length + r.length + 1 := by
        rw [hmid]; simp [List.length_append]; omega
      by_cases hc : devSq a b m ≤ devThreshold a b t
      · rw [douglasPeucker_eq_of_small t hs hc] at h
        exact base a b inner h
      · rw [douglasPeucker_eq_of_big t hs hc] at h
        obtain ⟨il, hil, hils⟩ := douglasPeucker_shape t l a m
        obtain ⟨ir, hir, hirs⟩ := douglasPeucker_shape t r m b
        have hcomb : a :: inner ++ [b] = a :: (il ++ m :: ir) ++ [b] := by
          rw [← h, hil, hir]
          simp
        have hinner : inner = il ++ m :: ir := cons_append_singleton_inj hcomb
        have hsplit : splitAtMax (devSq a b) inner = some (il, m, ir) := by
          rw [hinner]
          exact splitAtMax_eq_of _ il m ir
            (fun x hx => hl x (hils.subset hx))
            (fun x hx => hr x (hirs.subset hx))
        rw [douglasPeucker_eq_of_big t hsplit hc,
          ih l (by omega) a m il hil, ih r (by omega) m b ir hir, hinner]
        simp

/-- Claim C7: simplification is idempotent; running simplify a second time
with the same tolerance leaves the result unchanged. -/
theorem simplify_idem (g : List Pt) (t : ℚ) (_ht : 0 ≤ t) :
    simplify (simplify g t) t = simplify g t := by
  match g with
  | [] => rfl
  | [p] => rfl
  | a :: q :: rest =>
    set b : Pt := rest.getLastD q with hb
    set mid : List Pt := (q :: rest).dropLast with hmid
    have hsim : simplify (a :: q :: rest) t = douglasPeucker t a mid b := rfl
    obtain ⟨inner, hsh, -⟩ := douglasPeucker_shape t mid a b
    rw [hsim, hsh]
    match inner with
    | [] => rfl
    | c :: cs =>
      have hstep : simplify (a :: (c :: cs) ++ [b]) t = douglasPeucker t a (c :: cs) b := by
        show douglasPeucker t a ((c :: (cs ++ [b])).dropLast) ((cs ++ [b]).getLastD c) =
          douglasPeucker t a (c :: cs) b
        rw [show c :: (cs ++ [b]) = (c :: cs) ++ [b] from rfl, List.dropLast_concat,
          List.getLastD_concat]
      rw [hstep]
      exact douglasPeucker_idem t mid a b (c :: cs) hsh

/-- Concrete check for claim C7 on the five-vertex staircase polyline with
tolerance 1. -/
theorem simplify_idem_check :
    (0 : ℚ) ≤ 1 ∧
    simplify (simplify [((0 : ℚ), (0 : ℚ)), (1, 0), (1, 1), (2, 1), (2, 2)] 1) 1 =
      simplify [((0 : ℚ), (0 : ℚ)), (1, 0), (1, 1), (2, 1), (2, 2)] 1 :=
  ⟨by norm_num,
    simplify_idem [((0 : ℚ), (0 : ℚ)), (1, 0), (1, 1), (2, 1), (2, 2)] 1 (by norm_num)⟩

/-- Counterexample to claim C8: with tolerance 0 the Douglas-Peucker rule
of spec section 4.1 collapses a segment whenever the maximum deviation is
at most the tolerance, so an interior vertex lying exactly on the chord
(here the collinear middle vertex of a three-vertex polyline) is removed
and the input is not returned unchanged. -/
theorem simplify_zero_collinear_refuted :
    simplify [((0 : ℚ), (0 : ℚ)), (1, 0), (2, 0)] 0 ≠
      [((0 : ℚ), (0 : ℚ)), (1, 0), (2, 0)] := by
  have hval : simplify [((0 : ℚ), (0 : ℚ)), (1, 0), (2, 0)] 0 = [((0 : ℚ), (0 : ℚ)), (2, 0)] := by
    norm_num [simplify, douglasPeucker, douglasPeuckerAux, splitAtMax, devSq, devThreshold,
      distSq, crossChord, Prod.ext_iff]
  rw [hval]
  intro hcontra
  have := congrArg List.length hcontra
  simp at this

/-- No vertex of the list lies on the line through two other distinct
vertices. -/
def NoThreeCollinear (g : List Pt) : Prop :=
  ∀ p ∈ g, ∀ q ∈ g, ∀ r ∈ g, p ≠ q → p ≠ r → q ≠ r → crossChord p q r ≠ 0

theorem devThreshold_zero (a b : Pt) : devThreshold a b 0 = 0 := by
  unfold devThreshold
  split <;> simp

/-- With tolerance 0, Douglas-Peucker keeps every vertex of a segment
whose vertices are pairwise distinct and in general position: each
interior vertex has a strictly positive deviation from the enclosing
chord, so every recursion step splits. -/
theorem douglasPeucker_zero :
    ∀ (mid : List Pt) (a b : Pt), (a :: mid ++ [b]).Nodup →
      NoThreeCollinear (a :: mid ++ [b]) →
      douglasPeucker 0 a mid b = a :: mid ++ [b] := by
  suffices H : ∀ (n : ℕ) (mid : List Pt), mid.length ≤ n → ∀ (a b : Pt),
      (a :: mid ++ [b]).Nodup → NoThreeCollinear (a :: mid ++ [b]) →
      douglasPeucker 0 a mid b = a :: mid ++ [b] by
    exact fun mid a b h₁ h₂ => H mid.length mid le_rfl a b h₁ h₂
  intro n
  induction n with
  | zero =>
    intro mid hlen a b _ _
    have : mid = [] := List.eq_nil_of_length_eq_zero (Nat.le_zero.mp hlen)
    subst this
    rw [douglasPeucker_nil]
    rfl
  | succ n ih =>
    intro mid hlen a b hnd hcol
    rcases hs : splitAtMax (devSq a b) mid with _ | ⟨l, m, r⟩
    · have : mid = [] := eq_nil_of_splitAtMax_eq_none hs
      subst this
      rw [douglasPeucker_nil]
      rfl
    · obtain ⟨hmid, -, -⟩ := splitAtMax_spec _ mid l m r hs
      have hmlen : mid.length = l.length + r.length + 1 := by
        rw [hmid]; simp [List.length_append]; omega
      have hm_mid : m ∈ mid := by rw [hmid]; exact List.mem_append_right _ (List.mem_cons_self _ _)
      have hmem : ∀ x ∈ a :: mid ++ [b], x = a ∨ x ∈ mid ∨ x = b := by
        intro x hx
        rcases List.mem_cons.mp hx with hx | hx
        · exact Or.inl hx
        · rcases List.mem_append.mp hx with hx | hx
          · exact Or.inr (Or.inl hx)
          · exact Or.inr (Or.inr (List.mem_singleton.mp hx))
      have ha_notin : a ∉ mid ++ [b] := (List.nodup_cons.mp hnd).1
      have hnd' : (mid ++ [b]).Nodup := (List.nodup_cons.mp hnd).2
      have hab : a ≠ b := by
        intro hcontra
        apply ha_notin
        rw [hcontra]
        exact List.mem_append_right _ (List.mem_singleton_self b)
      have ham : a ≠ m := by
        intro hcontra
        apply ha_notin
        rw [hcontra]
        exact List.mem_append_left _ hm_mid
      have hmb : m ≠ b := by
        obtain ⟨-, -, hdisj⟩ := List.nodup_append.mp hnd'
        intro hcontra
        exact hdisj hm_mid (hcontra ▸ List.mem_singleton_self b)
      have hcross : crossChord a b m ≠ 0 :=
        hcol a (List.mem_cons_self _ _)
          b (List.mem_cons_of_mem _ (List.mem_append_right _ (List.mem_singleton_self b)))
          m (List.mem_cons_of_mem _ (List.mem_append_left _ hm_mid))
          hab ham (Ne.symm hmb)
      have hpos : 0 < devSq a b m := by
        rw [devSq, if_neg hab]
        exact lt_of_le_of_ne (sq_nonneg _) (Ne.symm (pow_ne_zero 2 hcross))
      have hc : ¬ devSq a b m ≤ devThreshold a b 0 := by
        rw [devThreshold_zero]
        exact not_le.mpr hpos
      rw [douglasPeucker_eq_of_big 0 hs hc]
      have hsubl : (a :: l ++ [m]).Sublist (a :: mid ++ [b]) := by
        rw [hmid]
        have h1 : (l ++ [m]).Sublist ((l ++ m :: r) ++ [b]) := by
          have h0 := ((List.nil_sublist (r ++ [b])).cons₂ m).append_left l
          simp only [List.append_assoc, List.cons_append, List.nil_append]
          exact h0
        exact h1.cons₂ a
      have hsubr : (m :: r ++ [b]).Sublist (a :: mid ++ [b]) := by
        rw [hmid]
        have h1 : (m :: r ++ [b]).Sublist ((l ++ m :: r) ++ [b]) := by
          have h0 := List.sublist_append_right l (m :: (r ++ [b]))
          simp only [List.append_assoc, List.cons_append, List.nil_append]
          exact h0
        exact h1.cons a
      have ihl := ih l (by omega) a m (hnd.sublist hsubl)
        (fun p hp q hq r' hr' => hcol p (hsubl.subset hp) q (hsubl.subset hq) r' (hsubl.subset hr'))
      have ihr := ih r (by omega) m b (hnd.sublist hsubr)
        (fun p hp q hq r' hr' => hcol p (hsubr.subset hp) q (hsubr.subset hq) r' (hsubr.subset hr'))
      rw [ihl, ihr, hmid]
      simp

/-- Claim C8, amended: simplification with tolerance 0 returns the input
unchanged for every polyline whose vertices are pairwise distinct and in
general position (no vertex on a line through two other vertices); in
general a vertex lying exactly on the chord of its segment — such as a
vertex interior to a collinear run — is removed even at tolerance 0. -/
theorem simplify_zero_generalPosition (g : List Pt) (hnd : g.Nodup)
    (hcol : NoThreeCollinear g) : simplify g 0 = g := by
  match g with
  | [] => rfl
  | [p] => rfl
  | a :: q :: rest =>
    set b : Pt := rest.getLastD q with hb
    set mid : List Pt := (q :: rest).dropLast with hmid
    have hdec : mid ++ [b] = q :: rest := dropLast_append_getLastD rest q
    have hg : a :: q :: rest = a :: mid ++ [b] := by rw [← hdec]; rfl
    have hsim : simplify (a :: q :: rest) 0 = douglasPeucker 0 a mid b := rfl
    have hz : douglasPeucker 0 a mid b = a :: mid ++ [b] :=
      douglasPeucker_zero mid a b (by rw [← hg]; exact hnd) (by rw [← hg]; exact hcol)
    rw [hsim, hz, ← hg]

/-- Concrete check for the amended claim C8 on a three-vertex polyline in
general position. -/
theorem simplify_zero_generalPosition_check :
    ([((0 : ℚ), (0 : ℚ)), (1, 0), (1, 1)] : List Pt).Nodup ∧
    NoThreeCollinear [((0 : ℚ), (0 : ℚ)), (1, 0), (1, 1)] ∧
    simplify [((0 : ℚ), (0 : ℚ)), (1, 0), (1, 1)] 0 =
      [((0 : ℚ), (0 : ℚ)), (1, 0), (1, 1)] := by
  have hnd : ([((0 : ℚ), (0 : ℚ)), (1, 0), (1, 1)] : List Pt).Nodup := by
    norm_num [Prod.ext_iff]
  have hcol : NoThreeCollinear [((0 : ℚ), (0 : ℚ)), (1, 0), (1, 1)] := by
    intro p hp q hq r hr hpq hpr hqr
    fin_cases hp <;> fin_cases hq <;> fin_cases hr <;>
      simp_all [crossChord, Prod.ext_iff]
  exact ⟨hnd, hcol, simplify_zero_generalPosition _ hnd hcol⟩

/-- Modelled from the spec: the error taxonomy of spec section 7 as far
as the simplifier needs it, a DegenerateGeometry error signalled when a
ring collapses below the minimum vertex count. -/
inductive SimplifyError where
  | degenerateGeometry : SimplifyError
deriving DecidableEq

/-- Number of distinct vertices of a list of points. -/
def distinctVertexCount : List Pt → ℕ
  | [] => 0
  | p :: ps => (if p ∈ ps then 0 else 1) + distinctVertexCount ps

/-- Modelled from the spec: simplification of a polygon ring, which
signals a DegenerateGeometry error instead of returning a result with
fewer than 3 distinct vertices (spec sections 4.1 and 7; the repository
only calls the external simplifier and contains no such kernel). -/
def simplifyRing (ring : List Pt) (t : ℚ) : Except SimplifyError (List Pt) :=
  let s := simplify ring t
  if distinctVertexCount s < 3 then Except.error SimplifyError.degenerateGeometry
  else Except.ok s

/-- Claim C9: whenever simplification would collapse a ring below 3
distinct vertices, the ring simplifier signals a DegenerateGeometry error,
and every ring it does return has at least 3 distinct vertices. -/
theorem simplifyRing_degenerate_signals (ring : List Pt) (t : ℚ) :
    (distinctVertexCount (simplify ring t) < 3 →
      simplifyRing ring t = Except.error SimplifyError.degenerateGeometry) ∧
    (∀ s, simplifyRing ring t = Except.ok s →
      s = simplify ring t ∧ 3 ≤ distinctVertexCount s) := by
  constructor
  · intro h
    rw [simplifyRing]
    simp only [h, if_pos]
  · intro s hs
    rw [simplifyRing] at hs
    by_cases h : distinctVertexCount (simplify ring t) < 3
    · rw [if_pos h] at hs
      exact absurd hs (by simp)
    · rw [if_neg h] at hs
      have hse : s = simplify ring t := Except.ok.inj hs.symm
      exact ⟨hse, by rw [hse]; omega⟩

/-- Concrete check for claim C9: a unit-square ring simplified with a
huge tolerance collapses to a single distinct vertex and the error is
signalled. -/
theorem simplifyRing_degenerate_signals_check :
    distinctVertexCount
        (simplify [((0 : ℚ), (0 : ℚ)), (1, 0), (1, 1), (0, 1), (0, 0)] 10) < 3 ∧
    simplifyRing [((0 : ℚ), (0 : ℚ)), (1, 0), (1, 1), (0, 1), (0, 0)] 10 =
      Except.error SimplifyError.degenerateGeometry := by
  have h : distinctVertexCount
      (simplify [((0 : ℚ), (0 : ℚ)), (1, 0), (1, 1), (0, 1), (0, 0)] 10) < 3 := by
    norm_num [simplify, douglasPeucker, douglasPeuckerAux, splitAtMax, devSq, devThreshold,
      distSq, crossChord, distinctVertexCount, Prod.ext_iff]
  exact ⟨h,
    (simplifyRing_degenerate_signals [((0 : ℚ), (0 : ℚ)), (1, 0), (1, 1), (0, 1), (0, 0)] 10).1 h⟩

/-- The six affine coefficients of spec section 4.2's AffineParams, as in
the six-parameter list taken by the affine transform of the chapter. -/
structure AffineParams where
  a : ℚ
  b : ℚ
  d : ℚ
  e : ℚ
  xoff : ℚ
  yoff : ℚ

/-- Modelled from the spec: the affine image of a single coordinate pair,
x' = a x + b y + xoff and y' = d x + e y + yoff (spec section 4.2 and the
affine equations quoted in the chapter; the shapely implementation is not
part of the repository). -/
def affinePt (p : AffineParams) (q : Pt) : Pt :=
  (p.a * q.1 + p.b * q.2 + p.xoff, p.d * q.1 + p.e * q.2 + p.yoff)

/-- The closed tagged-variant geometry type of the spec's data model:
point, polyline, polygon with holes, and the multi-part containers. -/
inductive Geometry where
  | point : Pt → Geometry
  | lineString : List Pt → Geometry
  | polygon : List Pt → List (List Pt) → Geometry
  | multiPoint : List Pt → Geometry
  | multiLineString : List (List Pt) → Geometry
  | multiPolygon : List (List Pt × List (List Pt)) → Geometry

/-- The topological type tag of a geometry. -/
inductive GeomTag where
  | point | lineString | polygon | multiPoint | multiLineString | multiPolygon
deriving DecidableEq

def geomTag : Geometry → GeomTag
  | .point _ => .point
  | .lineString _ => .lineString
  | .polygon _ _ => .polygon
  | .multiPoint _ => .multiPoint
  | .multiLineString _ => .multiLineString
  | .multiPolygon _ => .multiPolygon

/-- The list of all coordinates of a geometry, over all parts and rings. -/
def geomCoords : Geometry → List Pt
  | .point q => [q]
  | .lineString l => l
  | .polygon outer holes => outer ++ holes.flatten
  | .multiPoint l => l
  | .multiLineString ls => ls.flatten
  | .multiPolygon ps => (ps.map (fun poly => poly.1 ++ poly.2.flatten)).flatten

/-- Total vertex count of a geometry. -/
def vertexCount (g : Geometry) : ℕ := (geomCoords g).length

/-- Modelled from the spec: the affine transformer of spec section 4.2,
applying the linear map to every coordinate of every part.  It is a total
function by construction: it never fails on any geometry. -/
def affineTransform (p : AffineParams) : Geometry → Geometry
  | .point q => .point (affinePt p q)
  | .lineString l => .lineString (l.map (affinePt p))
  | .polygon outer holes => .polygon (outer.map (affinePt p)) (holes.map (List.map (affinePt p)))
  | .multiPoint l => .multiPoint (l.map (affinePt p))
  | .multiLineString ls => .multiLineString (ls.map (List.map (affinePt p)))
  | .multiPolygon ps =>
      .multiPolygon (ps.map (fun poly => (poly.1.map (affinePt p), poly.2.map (List.map (affinePt p)))))

/-- The coordinate list of an affine-transformed geometry is the pointwise
affine image of the input's coordinate list. -/
theorem affineTransform_coords (p : AffineParams) (g : Geometry) :
    geomCoords (affineTransform p g) = (geomCoords g).map (affinePt p) := by
  cases g with
  | point q => rfl
  | lineString l => rfl
  | polygon outer holes =>
    simp [affineTransform, geomCoords, List.map_flatten, List.map_map]
  | multiPoint l => rfl
  | multiLineString ls =>
    simp [affineTransform, geomCoords, List.map_flatten, List.map_map]
  | multiPolygon ps =>
    simp only [affineTransform, geomCoords]
    rw [List.map_flatten]
    simp only [List.map_map]
    apply congrArg List.flatten
    apply List.map_congr_left
    intro poly _
    simp [Function.comp, List.map_flatten, List.map_map]

/-- Claim C3: for every geometry and every six-coefficient parameter
list, the affine transform maps each coordinate (x, y) of every part to
(a x + b y + xoff, d x + e y + yoff), produces a geometry of the same
topological type and the same vertex count as the input, and — being a
total function on the geometry type — never fails. -/
theorem affineTransform_total_type_count (p : AffineParams) (g : Geometry) :
    geomCoords (affineTransform p g) =
      (geomCoords g).map
        (fun q => (p.a * q.1 + p.b * q.2 + p.xoff, p.d * q.1 + p.e * q.2 + p.yoff)) ∧
    geomTag (affineTransform p g) = geomTag g ∧
    vertexCount (affineTransform p g) = vertexCount g := by
  have hc := affineTransform_coords p g
  refine ⟨hc, by cases g <;> rfl, ?_⟩
  rw [vertexCount, vertexCount, hc, List.length_map]

/-- Modelled from the spec: a polygonal region represented by its
membership predicate, the semantic content on which the set-style
operations of spec section 4.3 act (the GEOS boolean kernel behind the
pairwise operations of the chapter is not part of the repository). -/
abbrev Region : Type := Pt → Bool

/-- The four pairwise set operations of spec section 4.3. -/
inductive SetOpKind where
  | intersection | union | difference | symmetricDifference
deriving DecidableEq

/-- Modelled from the spec: the pairwise set operation on regions,
computed pointwise on membership. -/
def setOp : SetOpKind → Region → Region → Region
  | .intersection, A, B => fun p => A p && B p
  | .union, A, B => fun p => A p || B p
  | .difference, A, B => fun p => A p && !(B p)
  | .symmetricDifference, A, B => fun p => xor (A p) (B p)

/-- A region is empty when no point belongs to it. -/
def IsEmptyRegion (R : Region) : Prop := ∀ p, R p = false

/-- Two regions are disjoint when no point belongs to both. -/
def DisjointRegion (A B : Region) : Prop := ∀ p, ¬(A p = true ∧ B p = true)

/-- Claim C2: intersection, union and symmetric difference of polygonal
regions are commutative, while difference is asymmetric: the two
differences of distinct regions always differ (a fortiori when both are
non-empty, as the claim has it). -/
theorem setOp_comm_difference_asym (A B : Region) :
    setOp .intersection A B = setOp .intersection B A ∧
    setOp .union A B = setOp .union B A ∧
    setOp .symmetricDifference A B = setOp .symmetricDifference B A ∧
    (A ≠ B → (∃ p, A p = true) → (∃ p, B p = true) →
      setOp .difference A B ≠ setOp .difference B A) := by
  refine ⟨?_, ?_, ?_, ?_⟩
  · funext p
    exact Bool.and_comm _ _
  · funext p
    exact Bool.or_comm _ _
  · funext p
    exact Bool.xor_comm _ _
  · intro hne _ _ heq
    apply hne
    funext p
    have hp := congrFun heq p
    simp only [setOp] at hp
    cases hA : A p <;> cases hB : B p <;> simp [hA, hB] at hp ⊢

/-- Concrete check for claim C2: the plane and the vertical axis are
distinct non-empty regions whose two differences differ. -/
theorem setOp_comm_difference_asym_check :
    setOp .difference (fun _ => true) (fun p => decide (p.1 = 0)) ≠
      setOp .difference (fun p => decide (p.1 = 0)) (fun _ => true) := by
  have hne : (fun _ => true : Region) ≠ (fun p => decide (p.1 = 0)) := by
    intro h
    have := congrFun h ((1 : ℚ), (0 : ℚ))
    norm_num at this
  exact (setOp_comm_difference_asym (fun _ => true) (fun p => decide (p.1 = 0))).2.2.2
    hne ⟨((0 : ℚ), (0 : ℚ)), rfl⟩ ⟨((0 : ℚ), (0 : ℚ)), by norm_num⟩

/-- Claim C6: the intersection of two disjoint regions is the empty
region; the operation is a total function (it cannot fail), and emptiness
is a property of the output a caller can test, not an error. -/
theorem intersection_disjoint_isEmpty (A B : Region) (h : DisjointRegion A B) :
    IsEmptyRegion (setOp .intersection A B) := by
  intro p
  have hp := h p
  cases hA : A p <;> cases hB : B p <;> simp [setOp, hA, hB]
  exact hp ⟨hA, hB⟩

/-- Concrete check for claim C6 on two disjoint vertical lines. -/
theorem intersection_disjoint_isEmpty_check :
    DisjointRegion (fun p => decide (p.1 = 0)) (fun p => decide (p.1 = 1)) ∧
    IsEmptyRegion
      (setOp .intersection (fun p => decide (p.1 = 0)) (fun p => decide (p.1 = 1))) := by
  have hd : DisjointRegion (fun p => decide (p.1 = 0)) (fun p => decide (p.1 = 1)) := by
    intro p hp
    obtain ⟨h0, h1⟩ := hp
    rw [decide_eq_true_eq] at h0 h1
    rw [h0] at h1
    norm_num at h1
  exact ⟨hd, intersection_disjoint_isEmpty _ _ hd⟩

/-- The boolean intersects test of a point against a region. -/
def ptIntersects (p : Pt) (R : Region) : Bool := R p

/-- The pairwise intersection of a point geometry with a region: the point
itself when it lies in the region, and the empty geometry (none)
otherwise. -/
def ptIntersection (p : Pt) (R : Region) : Option Pt :=
  if R p then some p else none

/-- Emptiness test on a point-or-empty geometry, as the is_empty test of
the chapter. -/
def optIsEmpty (o : Option Pt) : Bool := o.isNone

/-- Subsetting a point list by the boolean intersects test, as pnt1 in
the chapter. -/
def subsetByIntersects (pnt : List Pt) (R : Region) : List Pt :=
  pnt.filter (fun p => ptIntersects p R)

/-- Pairwise intersection of each point with the clip geometry, before
filtering, as pnt2 in the chapter: one output per input point, including
the empty ones. -/
def pairwiseIntersections (pnt : List Pt) (R : Region) : List (Option Pt) :=
  pnt.map (fun p => ptIntersection p R)

/-- Discarding the empty results, as pnt2 with the non-empty filter
applied. -/
def dropEmpty (l : List (Option Pt)) : List Pt :=
  (l.filter (fun o => !(optIsEmpty o))).filterMap id

/-- Claim C10: subsetting points by the boolean intersects test equals
pairwise intersection followed by discarding empty results; the only
difference between the two pipelines is that the pairwise one also
returns the empty geometries before filtering (one output per input, a
point exactly when it intersects the clip, the empty geometry exactly
when it does not). -/
theorem subset_vs_clip_eq (pnt : List Pt) (R : Region) :
    dropEmpty (pairwiseIntersections pnt R) = subsetByIntersects pnt R ∧
    (pairwiseIntersections pnt R).length = pnt.length ∧
    (∀ p ∈ pnt, ptIntersects p R = true → ptIntersection p R = some p) ∧
    (∀ p ∈ pnt, ptIntersects p R = false → optIsEmpty (ptIntersection p R) = true) := by
  refine ⟨?_, List.length_map _ _, ?_, ?_⟩
  · induction pnt with
    | nil => rfl
    | cons p ps ih =>
      by_cases h : R p = true
      · simp [dropEmpty, pairwiseIntersections, subsetByIntersects, ptIntersection,
          ptIntersects, optIsEmpty, h] at ih ⊢
        exact ih
      · rw [Bool.not_eq_true] at h
        simp [dropEmpty, pairwiseIntersections, subsetByIntersects, ptIntersection,
          ptIntersects, optIsEmpty, h] at ih ⊢
        exact ih
  · intro p _ hp
    rw [ptIntersection, if_pos (by rw [ptIntersects] at hp; rw [hp])]
  · intro p _ hp
    rw [ptIntersection, if_neg (by rw [ptIntersects] at hp; rw [hp]; simp)]
    rfl

/-- Concrete check for claim C10 on two points against the half-plane of
abscissa at most 1: the two pipelines agree and the pairwise pipeline
returns one output per input point. -/
theorem subset_vs_clip_eq_check :
    dropEmpty (pairwiseIntersections [((0 : ℚ), (0 : ℚ)), (2, 0)] (fun p => decide (p.1 ≤ 1))) =
      subsetByIntersects [((0 : ℚ), (0 : ℚ)), (2, 0)] (fun p => decide (p.1 ≤ 1)) ∧
    (pairwiseIntersections [((0 : ℚ), (0 : ℚ)), (2, 0)] (fun p => decide (p.1 ≤ 1))).length = 2 :=
  ⟨(subset_vs_clip_eq [((0 : ℚ), (0 : ℚ)), (2, 0)] (fun p => decide (p.1 ≤ 1))).1,
    (subset_vs_clip_eq [((0 : ℚ), (0 : ℚ)), (2, 0)] (fun p => decide (p.1 ≤ 1))).2.1⟩

/-- Modelled from the spec: a raster grid, a 2D array of numeric cell
values indexed by row and column, in its own pixel coordinate system
(unit pixel size, origin at the top-left corner; spec section 3). -/
structure Grid where
  width : ℕ
  height : ℕ
  data : ℕ → ℕ → ℚ

/-- The center of source cell (row, col) lies inside the footprint of
target cell (R, C) of the k-times coarser axis-aligned grid: the target
footprint spans source rows [R k, (R+1) k) and columns [C k, (C+1) k),
and the source cell center sits at row + 1/2, col + 1/2. -/
def centerInFootprint (k R C : ℕ) (rc : ℕ × ℕ) : Prop :=
  ((R * k : ℕ) : ℚ) ≤ (rc.1 : ℚ) + 1 / 2 ∧
  (rc.1 : ℚ) + 1 / 2 < (((R + 1) * k : ℕ) : ℚ) ∧
  ((C * k : ℕ) : ℚ) ≤ (rc.2 : ℚ) + 1 / 2 ∧
  (rc.2 : ℚ) + 1 / 2 < (((C + 1) * k : ℕ) : ℚ)

instance centerInFootprintDec (k R C : ℕ) (rc : ℕ × ℕ) :
    Decidable (centerInFootprint k R C rc) := by
  unfold centerInFootprint
  infer_instance

/-- The source cells pooled by target cell (R, C): all cells of the
source grid whose centers fall within the target cell footprint, as the
spec's aggregate reducers require. -/
def blockCells (src : Grid) (k R C : ℕ) : Finset (ℕ × ℕ) :=
  (Finset.range src.height ×ˢ Finset.range src.width).filter (centerInFootprint k R C)

/-- Modelled from the spec: resampling with the average reducer of spec
section 4.4 (the rasterio resampling engine is not part of the
repository): every target cell receives the arithmetic mean of the source
cells whose centers fall within its footprint. -/
def resampleAverage (src : Grid) (k outH outW : ℕ) : Grid :=
  ⟨outW, outH,
    fun R C =>
      (∑ rc ∈ blockCells src k R C, src.data rc.1 rc.2) / ((blockCells src k R C).card : ℚ)⟩

/-- Modelled from the spec: aggregation by an integer factor k as the
special case of resampling onto the axis-aligned grid whose dimensions
are the truncated quotients of the source dimensions, as in the chapter's
out_shape computation. -/
def aggregateAverage (src : Grid) (k : ℕ) : Grid :=
  resampleAverage src k (src.height / k) (src.width / k)

theorem half_bridge_le (a n : ℕ) : ((a : ℚ) ≤ (n : ℚ) + 1 / 2) ↔ a ≤ n := by
  constructor
  · intro h
    by_contra hc
    push_neg at hc
    have h1 : (n : ℚ) + 1 ≤ (a : ℚ) := by exact_mod_cast hc
    linarith
  · intro h
    have h1 : (a : ℚ) ≤ (n : ℚ) := by exact_mod_cast h
    linarith

theorem half_bridge_lt (n a : ℕ) : ((n : ℚ) + 1 / 2 < (a : ℚ)) ↔ n < a := by
  constructor
  · intro h
    by_contra hc
    push_neg at hc
    have h1 : (a : ℚ) ≤ (n : ℚ) := by exact_mod_cast hc
    linarith
  · intro h
    have h1 : (n : ℚ) + 1 ≤ (a : ℚ) := by exact_mod_cast h
    linarith

/-- A source cell center lies in the footprint of target cell (R, C)
exactly when its indices lie in the corresponding k-by-k index block. -/
theorem centerInFootprint_iff (k R C : ℕ) (rc : ℕ × ℕ) :
    centerInFootprint k R C rc ↔
      R * k ≤ rc.1 ∧ rc.1 < (R + 1) * k ∧ C * k ≤ rc.2 ∧ rc.2 < (C + 1) * k := by
  unfold centerInFootprint
  simp only [half_bridge_le, half_bridge_lt]

/-- For an interior target cell of the aggregated grid, the pooled source
cells are exactly the k-by-k index block. -/
theorem blockCells_eq (src : Grid) (k R C : ℕ)
    (hW : k ∣ src.width) (hH : k ∣ src.height)
    (hR : R < src.height / k) (hC : C < src.width / k) :
    blockCells src k R C =
      Finset.Ico (R * k) (R * k + k) ×ˢ Finset.Ico (C * k) (C * k + k) := by
  have hh : src.height / k * k = src.height := Nat.div_mul_cancel hH
  have hw : src.width / k * k = src.width := Nat.div_mul_cancel hW
  ext rc
  simp only [blockCells, Finset.mem_filter, Finset.mem_product, Finset.mem_range,
    Finset.mem_Ico, centerInFootprint_iff]
  constructor
  · rintro ⟨⟨h1, h2⟩, ha, hb, hc', hd⟩
    rw [Nat.succ_mul] at hb hd
    exact ⟨⟨ha, hb⟩, hc', hd⟩
  · rintro ⟨⟨ha, hb⟩, hc', hd⟩
    have hb' : rc.1 < (R + 1) * k := by rw [Nat.succ_mul]; exact hb
    have hd' : rc.2 < (C + 1) * k := by rw [Nat.succ_mul]; exact hd
    have hRh : (R + 1) * k ≤ src.height := by
      calc (R + 1) * k ≤ src.height / k * k := Nat.mul_le_mul_right k (by omega)
        _ = src.height := hh
    have hCw : (C + 1) * k ≤ src.width := by
      calc (C + 1) * k ≤ src.width / k * k := Nat.mul_le_mul_right k (by omega)
        _ = src.width := hw
    exact ⟨⟨lt_of_lt_of_le hb' hRh, lt_of_lt_of_le hd' hCw⟩, ha, hb', hc', hd'⟩

/-- Claim C5: when the integer factor k divides both dimensions of a
W-by-H grid, aggregating with the average method yields a (W/k)-by-(H/k)
grid in which every cell value is the arithmetic mean of the
corresponding k-by-k block of source cells. -/
theorem aggregateAverage_block_mean (src : Grid) (k : ℕ) (_hk : 0 < k)
    (hW : k ∣ src.width) (hH : k ∣ src.height) :
    (aggregateAverage src k).height = src.height / k ∧
    (aggregateAverage src k).width = src.width / k ∧
    ∀ R C, R < src.height / k → C < src.width / k →
      (aggregateAverage src k).data R C =
        (∑ i ∈ Finset.range k, ∑ j ∈ Finset.range k, src.data (R * k + i) (C * k + j)) /
          ((k : ℚ) * (k : ℚ)) := by
  refine ⟨rfl, rfl, ?_⟩
  intro R C hR hC
  show (∑ rc ∈ blockCells src k R C, src.data rc.1 rc.2) /
      ((blockCells src k R C).card : ℚ) = _
  rw [blockCells_eq src k R C hW hH hR hC, Finset.sum_product, Finset.card_product,
    Nat.card_Ico, Nat.card_Ico, Nat.add_sub_cancel_left, Nat.add_sub_cancel_left]
  rw [Finset.sum_Ico_eq_sum_range]
  simp only [Finset.sum_Ico_eq_sum_range, Nat.add_sub_cancel_left]
  push_cast
  ring_nf

/-- Concrete check for claim C5: aggregating a 2-by-2 grid by factor 2
gives a single cell holding the mean of the four source values. -/
theorem aggregateAverage_block_mean_check :
    0 < 2 ∧ (2 : ℕ) ∣ 2 ∧
    (aggregateAverage ⟨2, 2, fun r c => (r : ℚ) * 2 + (c : ℚ)⟩ 2).data 0 0 =
      (∑ i ∈ Finset.range 2, ∑ j ∈ Finset.range 2,
        (((0 * 2 + i : ℕ) : ℚ) * 2 + ((0 * 2 + j : ℕ) : ℚ))) / ((2 : ℚ) * (2 : ℚ)) := by
  refine ⟨by norm_num, by norm_num, ?_⟩
  have h := (aggregateAverage_block_mean ⟨2, 2, fun r c => (r : ℚ) * 2 + (c : ℚ)⟩ 2
    (by norm_num) (by norm_num) (by norm_num)).2.2 0 0 (by norm_num) (by norm_num)
  simpa using h

/-- A unit grid cell, identified by the integer coordinates of its
lower-left corner: cell (x, y) occupies the square from (x, y) to
(x + 1, y + 1). -/
abbrev Cell : Type := ℤ × ℤ

/-- Modelled from the spec: a polygonal region in the rectilinear cell
model, a finite set of unit cells.  The dissolve and combine operations
of spec section 4.3 act on lists of such parts (the GEOS union kernel
behind GeoDataFrame.dissolve is not part of the repository). -/
abbrev CellRegion : Type := Finset Cell

/-- A unit edge of the grid: (vertical?, x, y).  The horizontal edge
(false, x, y) runs from corner (x, y) to (x + 1, y); the vertical edge
(true, x, y) runs from corner (x, y) to (x, y + 1). -/
abbrev GridEdge : Type := Bool × ℤ × ℤ

/-- The two cells separated by an edge: a vertical edge at x separates
cells (x - 1, y) and (x, y); a horizontal edge at y separates cells
(x, y - 1) and (x, y). -/
def edgeCells (e : GridEdge) : Cell × Cell :=
  if e.1 then ((e.2.1 - 1, e.2.2), (e.2.1, e.2.2))
  else ((e.2.1, e.2.2 - 1), (e.2.1, e.2.2))

/-- An edge lies on the boundary of a region exactly when it separates a
cell of the region from a cell outside it. -/
def IsBoundaryEdge (S : CellRegion) (e : GridEdge) : Prop :=
  ((edgeCells e).1 ∈ S ∧ (edgeCells e).2 ∉ S) ∨
  ((edgeCells e).1 ∉ S ∧ (edgeCells e).2 ∈ S)

instance isBoundaryEdgeDec (S : CellRegion) (e : GridEdge) : Decidable (IsBoundaryEdge S e) := by
  unfold IsBoundaryEdge
  infer_instance

/-- The four edges of a cell. -/
def cellEdgeFinset (c : Cell) : Finset GridEdge :=
  {(false, c.1, c.2), (false, c.1, c.2 + 1), (true, c.1, c.2), (true, c.1 + 1, c.2)}

/-- The set of boundary edges of a region. -/
def boundaryEdgeSet (S : CellRegion) : Finset GridEdge :=
  (S.biUnion cellEdgeFinset).filter (IsBoundaryEdge S)

/-- The union of all parts of a collection. -/
def unionAll (parts : List CellRegion) : CellRegion := parts.foldr (· ∪ ·) ∅

/-- Modelled from the spec: dissolving a collection of parts unions them
into one single geometry, merging boundaries (spec section 4.3). -/
def dissolve (parts : List CellRegion) : List CellRegion := [unionAll parts]

/-- Modelled from the spec: combining without dissolving nests the parts
into a multi-part container unchanged, with no boundary merging (spec
section 4.3). -/
def combineParts (parts : List CellRegion) : List CellRegion := parts

/-- An internal border edge of a collection: an edge whose two sides are
covered by two different parts. -/
def InternalEdge (parts : List CellRegion) (e : GridEdge) : Prop :=
  ∃ P ∈ parts, ∃ Q ∈ parts, P ≠ Q ∧ (edgeCells e).1 ∈ P ∧ (edgeCells e).2 ∈ Q

theorem mem_unionAll (parts : List CellRegion) (x : Cell) :
    x ∈ unionAll parts ↔ ∃ P ∈ parts, x ∈ P := by
  induction parts with
  | nil => simp [unionAll]
  | cons P ps ih =>
    rw [show unionAll (P :: ps) = P ∪ unionAll ps from rfl]
    simp [Finset.mem_union, ih]

/-- Claim C4, amended: dissolving a collection of pairwise
interior-disjoint parts yields a single geometry whose boundary contains
none of the internal shared borders (though that boundary may consist of
several rings when the union encloses holes), whereas combining without
dissolving yields an N-part multi-geometry in which every internal border
is still a boundary edge of some part; for N at least 2 the two outputs
differ. -/
theorem dissolve_vs_combine (parts : List CellRegion)
    (hdisj : parts.Pairwise (fun P Q => P ∩ Q = ∅)) (hN : 2 ≤ parts.length) :
    (dissolve parts).length = 1 ∧
    (combineParts parts).length = parts.length ∧
    (∀ e, InternalEdge parts e →
      ¬ IsBoundaryEdge (unionAll parts) e ∧
      ∃ P ∈ combineParts parts, IsBoundaryEdge P e) ∧
    dissolve parts ≠ combineParts parts := by
  have hsymm : Symmetric (fun P Q : CellRegion => P ∩ Q = ∅) := by
    intro P Q h
    rwa [Finset.inter_comm]
  refine ⟨rfl, rfl, ?_, ?_⟩
  · rintro e ⟨P, hP, Q, hQ, hPQ, h1, h2⟩
    have hdisjPQ : P ∩ Q = ∅ := hdisj.forall hsymm hP hQ hPQ
    have h2P : (edgeCells e).2 ∉ P := by
      intro hc
      have : (edgeCells e).2 ∈ P ∩ Q := Finset.mem_inter.mpr ⟨hc, h2⟩
      rw [hdisjPQ] at this
      exact absurd this (Finset.not_mem_empty _)
    constructor
    · intro hbe
      have hu1 : (edgeCells e).1 ∈ unionAll parts := (mem_unionAll _ _).mpr ⟨P, hP, h1⟩
      have hu2 : (edgeCells e).2 ∈ unionAll parts := (mem_unionAll _ _).mpr ⟨Q, hQ, h2⟩
      rcases hbe with ⟨-, hout⟩ | ⟨hout, -⟩
      · exact hout hu2
      · exact hout hu1
    · exact ⟨P, hP, Or.inl ⟨h1, h2P⟩⟩
  · intro h
    have hlen := congrArg List.length h
    simp only [dissolve, combineParts, List.length_singleton] at hlen
    omega

/-- Concrete check for the amended claim C4 on two touching unit squares. -/
theorem dissolve_vs_combine_check :
    ([{((0 : ℤ), (0 : ℤ))}, {((1 : ℤ), (0 : ℤ))}] : List CellRegion).Pairwise
      (fun P Q => P ∩ Q = ∅) ∧
    (dissolve [{((0 : ℤ), (0 : ℤ))}, {((1 : ℤ), (0 : ℤ))}]).length = 1 ∧
    (combineParts [{((0 : ℤ), (0 : ℤ))}, {((1 : ℤ), (0 : ℤ))}]).length = 2 ∧
    dissolve [{((0 : ℤ), (0 : ℤ))}, {((1 : ℤ), (0 : ℤ))}] ≠
      combineParts [{((0 : ℤ), (0 : ℤ))}, {((1 : ℤ), (0 : ℤ))}] := by
  have hd : ([{((0 : ℤ), (0 : ℤ))}, {((1 : ℤ), (0 : ℤ))}] : List CellRegion).Pairwise
      (fun P Q => P ∩ Q = ∅) := by decide
  have h := dissolve_vs_combine [{((0 : ℤ), (0 : ℤ))}, {((1 : ℤ), (0 : ℤ))}] hd (by decide)
  exact ⟨hd, h.1, h.2.1, h.2.2.2⟩

/-- Two cells touch when they share an edge. -/
def cellsTouch (c d : Cell) : Prop :=
  (c.1 = d.1 ∧ (d.2 = c.2 + 1 ∨ c.2 = d.2 + 1)) ∨
  (c.2 = d.2 ∧ (d.1 = c.1 + 1 ∨ c.1 = d.1 + 1))

instance cellsTouchDec (c d : Cell) : Decidable (cellsTouch c d) := by
  unfold cellsTouch
  infer_instance

/-- One step of neighbourhood expansion inside a cell set. -/
def cellExpand (S A : Finset Cell) : Finset Cell :=
  A ∪ S.filter (fun c => ∃ a ∈ A, cellsTouch a c)

/-- A cell set is connected when it is empty or is exhausted by repeated
neighbourhood expansion from one of its cells. -/
def CellConnected (S : Finset Cell) : Prop :=
  S = ∅ ∨ ∃ c ∈ S, (cellExpand S)^[S.card] {c} = S

instance cellConnectedDec (S : Finset Cell) : Decidable (CellConnected S) := by
  unfold CellConnected
  infer_instance

/-- The two endpoint corners of a grid edge. -/
def edgeEndpoints (e : GridEdge) : (ℤ × ℤ) × (ℤ × ℤ) :=
  if e.1 then ((e.2.1, e.2.2), (e.2.1, e.2.2 + 1))
  else ((e.2.1, e.2.2), (e.2.1 + 1, e.2.2))

/-- Two edges touch when they share an endpoint corner. -/
def edgesTouch (e f : GridEdge) : Prop :=
  (edgeEndpoints e).1 = (edgeEndpoints f).1 ∨ (edgeEndpoints e).1 = (edgeEndpoints f).2 ∨
  (edgeEndpoints e).2 = (edgeEndpoints f).1 ∨ (edgeEndpoints e).2 = (edgeEndpoints f).2

instance edgesTouchDec (e f : GridEdge) : Decidable (edgesTouch e f) := by
  unfold edgesTouch
  infer_instance

/-- An edge set is separated into two pieces when they partition it, both
are non-empty, and no edge of one shares an endpoint with an edge of the
other.  A single closed ring of edges is edge-connected, so the boundary
of a one-ring geometry admits no such separation. -/
def SeparatedInto (E E1 E2 : Finset GridEdge) : Prop :=
  E1 ∪ E2 = E ∧ E1 ∩ E2 = ∅ ∧ E1.Nonempty ∧ E2.Nonempty ∧
  ∀ a ∈ E1, ∀ b ∈ E2, ¬ edgesTouch a b

instance separatedIntoDec (E E1 E2 : Finset GridEdge) : Decidable (SeparatedInto E E1 E2) := by
  unfold SeparatedInto
  infer_instance

/-- Eight pairwise-disjoint unit squares forming a ring around the hole
cell (1, 1). -/
def annulusParts : List CellRegion :=
  [{((0 : ℤ), (0 : ℤ))}, {((1 : ℤ), (0 : ℤ))}, {((2 : ℤ), (0 : ℤ))},
   {((0 : ℤ), (1 : ℤ))}, {((2 : ℤ), (1 : ℤ))},
   {((0 : ℤ), (2 : ℤ))}, {((1 : ℤ), (2 : ℤ))}, {((2 : ℤ), (2 : ℤ))}]

/-- Counterexample to claim C4: the eight touching squares of
annulusParts satisfy the claim's premise (pairwise interior-disjoint,
each touching another, connected union, all internal borders shared),
yet dissolving them does not yield a geometry with one ring: the boundary
of the union separates into an outer contour and an inner contour around
the enclosed hole, two non-empty pieces sharing no endpoint, whereas the
boundary of a one-ring geometry is a single edge-connected closed
contour. -/
theorem dissolve_one_ring_refuted :
    annulusParts.Pairwise (fun P Q => P ∩ Q = ∅) ∧
    2 ≤ annulusParts.length ∧
    (∀ P ∈ annulusParts, ∃ Q ∈ annulusParts, Q ≠ P ∧ ∃ c ∈ P, ∃ d ∈ Q, cellsTouch c d) ∧
    CellConnected (unionAll annulusParts) ∧
    SeparatedInto (boundaryEdgeSet (unionAll annulusParts))
      {((false : Bool), (0 : ℤ), (0 : ℤ)), ((false : Bool), (1 : ℤ), (0 : ℤ)),
        ((false : Bool), (2 : ℤ), (0 : ℤ)), ((false : Bool), (0 : ℤ), (3 : ℤ)),
        ((false : Bool), (1 : ℤ), (3 : ℤ)), ((false : Bool), (2 : ℤ), (3 : ℤ)),
        ((true : Bool), (0 : ℤ), (0 : ℤ)), ((true : Bool), (0 : ℤ), (1 : ℤ)),
        ((true : Bool), (0 : ℤ), (2 : ℤ)), ((true : Bool), (3 : ℤ), (0 : ℤ)),
        ((true : Bool), (3 : ℤ), (1 : ℤ)), ((true : Bool), (3 : ℤ), (2 : ℤ))}
      {((false : Bool), (1 : ℤ), (1 : ℤ)), ((false : Bool), (1 : ℤ), (2 : ℤ)),
        ((true : Bool), (1 : ℤ), (1 : ℤ)), ((true : Bool), (2 : ℤ), (1 : ℤ))} := by
  decide

end GeoKernel
